import Mathlib

/-!
Verification of the product-recommendation web application.

The definitions below are a shallow embedding of the JavaScript source:
the React `App` state handlers (`handleProductClick`,
`handlePreferencesChange`, `handleGetRecommendations`,
`handleClearHistory`), the `Catalog` filtering/sorting, and the
`BrowsingHistory` summary helpers (`getHistoryProducts`, `getSummary`).
JavaScript numbers are modelled as rationals (ℚ); JS `undefined` is
modelled with `Option`; JS object key iteration order (insertion order
for string keys) is modelled with association lists that append new keys
at the end and update existing keys in place.
-/

/-- A catalog product, as served by the API and consumed by the UI:
`{id, name, brand, category, subcategory, price, rating, tags}`. -/
structure Product where
  id : String
  name : String
  brand : String
  category : String
  subcategory : String
  price : ℚ
  rating : ℚ
  tags : List String
deriving DecidableEq

/-- `handleProductClick` of `frontend/src/App.js`: append the clicked
product id to the browsing history unless it is already present
(`if (!browsingHistory.includes(productId)) setBrowsingHistory([...browsingHistory, productId])`). -/
def recordView (history : List String) (productId : String) : List String :=
  if history.contains productId then history else history ++ [productId]

/-- `handleProductClick` of the authenticated App variant (part_006):
same duplicate guard, but the new id is prepended
(`setBrowsingHistory(prevHistory => [productId, ...prevHistory])`). -/
def recordViewFront (history : List String) (productId : String) : List String :=
  if history.contains productId then history else productId :: history

/-- A sequence of product clicks against the `App.js` handler. -/
def recordAll (history : List String) (clicks : List String) : List String :=
  clicks.foldl recordView history

/-- A sequence of product clicks against the part_006 handler. -/
def recordAllFront (history : List String) (clicks : List String) : List String :=
  clicks.foldl recordViewFront history

/-- `handleClearHistory` of `App.js`: `setBrowsingHistory([])`. -/
def clearHistory : List String := []

lemma recordView_of_contains {history : List String} {p : String}
    (h : history.contains p) : recordView history p = history := by
  have hm : p ∈ history := by simpa using h
  simp [recordView, hm]

lemma contains_recordView (history : List String) (p : String) :
    (recordView history p).contains p := by
  unfold recordView
  by_cases h : p ∈ history
  · simp [h]
  · simp [h]

lemma recordViewFront_of_contains {history : List String} {p : String}
    (h : history.contains p) : recordViewFront history p = history := by
  have hm : p ∈ history := by simpa using h
  simp [recordViewFront, hm]

lemma contains_recordViewFront (history : List String) (p : String) :
    (recordViewFront history p).contains p := by
  unfold recordViewFront
  by_cases h : p ∈ history
  · simp [h]
  · simp [h]

/-- **C1.** `record` is idempotent, in both App variants: recording a
product id that is already a member leaves the history unchanged, so a
second `record` of the same id after a first one changes neither the
history nor its length. -/
theorem recordView_idempotent (history : List String) (p : String) :
    (history.contains p → recordView history p = history) ∧
    recordView (recordView history p) p = recordView history p ∧
    (recordView (recordView history p) p).length = (recordView history p).length ∧
    (history.contains p → recordViewFront history p = history) ∧
    recordViewFront (recordViewFront history p) p = recordViewFront history p := by
  refine ⟨fun h => recordView_of_contains h, ?_, ?_, fun h => recordViewFront_of_contains h, ?_⟩
  · exact recordView_of_contains (contains_recordView history p)
  · rw [recordView_of_contains (contains_recordView history p)]
  · exact recordViewFront_of_contains (contains_recordViewFront history p)

/-- Witness for C1 at a concrete history. -/
theorem recordView_idempotent_witness :
    recordView ["p1", "p2"] "p2" = ["p1", "p2"] ∧
    recordView (recordView ["p1"] "p3") "p3" = recordView ["p1"] "p3" :=
  ⟨(recordView_idempotent ["p1", "p2"] "p2").1 (by decide),
   (recordView_idempotent ["p1"] "p3").2.1⟩

/-- Counterexample for C2 as stated: the part_006 click handler
prepends, so clicking `p1, p2, p1` from an empty history yields
`["p2", "p1"]`, not `["p1", "p2"]`. -/
theorem recordAllFront_p1p2p1 :
    recordAllFront [] ["p1", "p2", "p1"] = ["p2", "p1"] ∧
    recordAllFront [] ["p1", "p2", "p1"] ≠ ["p1", "p2"] := by
  constructor
  · rfl
  · decide

/-- **C2 (amended).** Clicking `p1, p2, p1` from an empty history gives
exactly `["p1", "p2"]` under the `App.js` handler (append, view order,
first-view position kept); under the part_006 handler (prepend) the
duplicate is likewise suppressed but the result is `["p2", "p1"]`. -/
theorem recordAll_p1p2p1 :
    recordAll [] ["p1", "p2", "p1"] = ["p1", "p2"] ∧
    recordAllFront [] ["p1", "p2", "p1"] = ["p2", "p1"] :=
  ⟨rfl, rfl⟩

/-- The category-filter stage of `sortAndFilterProducts` in the Catalog
component (part_002): `if (filterCategory) { filteredProducts =
filteredProducts.filter(product => product.category === filterCategory) }`.
The empty string is falsy in JS, so an empty selection applies no filter. -/
def applyCategoryFilter (products : List Product) (filterCategory : String) : List Product :=
  if filterCategory ≠ "" then
    products.filter (fun product => product.category == filterCategory)
  else products

/-- The sort comparator of `sortAndFilterProducts` (part_002), as the
"a sorts no later than b" relation of its numeric comparator:
price ascending for `price-low`, price descending for `price-high`,
rating descending for `rating`, name ascending otherwise. -/
def productLe (sortBy : String) (a b : Product) : Bool :=
  if sortBy == "price-low" then a.price ≤ b.price
  else if sortBy == "price-high" then b.price ≤ a.price
  else if sortBy == "rating" then b.rating ≤ a.rating
  else a.name ≤ b.name

/-- `sortAndFilterProducts` (part_002): category filter, then a stable
sort by the selected comparator (JS `Array.prototype.sort` is stable;
modelled by merge sort). -/
def sortAndFilterProducts (products : List Product) (filterCategory sortBy : String) :
    List Product :=
  (applyCategoryFilter products filterCategory).mergeSort (productLe sortBy)

/-- **C3.** An empty category selection imposes no constraint: the
filtering stage returns the product list unchanged, and the full
filter-and-sort pipeline keeps every product (it is a permutation of the
input), rather than matching nothing. -/
theorem applyCategoryFilter_empty (products : List Product) (sortBy : String) :
    applyCategoryFilter products "" = products ∧
    (sortAndFilterProducts products "" sortBy).Perm products := by
  have hfilter : applyCategoryFilter products "" = products := by
    simp [applyCategoryFilter]
  refine ⟨hfilter, ?_⟩
  unfold sortAndFilterProducts
  rw [hfilter]
  exact List.mergeSort_perm products (productLe sortBy)

/-- User preferences held in `App.js` state:
`{priceRange, categories, brands}`. -/
structure Preferences where
  priceRange : String
  categories : List String
  brands : List String
deriving DecidableEq

/-- A partial preferences update, as passed to `handlePreferencesChange`.
A JS object argument may omit any of the three keys; an omitted key is
`none`. -/
structure PartialPreferences where
  priceRange : Option String := none
  categories : Option (List String) := none
  brands : Option (List String) := none

/-- `handlePreferencesChange` of `App.js`:
`setUserPreferences(prev => ({...prev, ...newPreferences}))`.
Object spread keeps every key of `prev` not present in the update and
overwrites every key that is present. -/
def handlePreferencesChange (prev : Preferences) (upd : PartialPreferences) : Preferences :=
  { priceRange := upd.priceRange.getD prev.priceRange
    categories := upd.categories.getD prev.categories
    brands := upd.brands.getD prev.brands }

/-- **C9.** Last write wins with a frame condition: the merge sets
exactly the fields present in the partial update to their new values and
leaves every absent field unchanged. -/
theorem handlePreferencesChange_frame (prev : Preferences) (upd : PartialPreferences) :
    (upd.priceRange = none → (handlePreferencesChange prev upd).priceRange = prev.priceRange) ∧
    (∀ v, upd.priceRange = some v → (handlePreferencesChange prev upd).priceRange = v) ∧
    (upd.categories = none → (handlePreferencesChange prev upd).categories = prev.categories) ∧
    (∀ v, upd.categories = some v → (handlePreferencesChange prev upd).categories = v) ∧
    (upd.brands = none → (handlePreferencesChange prev upd).brands = prev.brands) ∧
    (∀ v, upd.brands = some v → (handlePreferencesChange prev upd).brands = v) := by
  refine ⟨fun h => ?_, fun v h => ?_, fun h => ?_, fun v h => ?_, fun h => ?_, fun v h => ?_⟩ <;>
    simp [handlePreferencesChange, h]

/-- Witness for C9: updating only the price range keeps categories and
brands and stores the new price range. -/
theorem handlePreferencesChange_frame_witness :
    (handlePreferencesChange ⟨"all", ["A"], ["b1"]⟩
      { priceRange := some "0-50" }).priceRange = "0-50" ∧
    (handlePreferencesChange ⟨"all", ["A"], ["b1"]⟩
      { priceRange := some "0-50" }).categories = ["A"] ∧
    (handlePreferencesChange ⟨"all", ["A"], ["b1"]⟩
      { priceRange := some "0-50" }).brands = ["b1"] :=
  ⟨(handlePreferencesChange_frame ⟨"all", ["A"], ["b1"]⟩
      { priceRange := some "0-50" }).2.1 "0-50" rfl,
   (handlePreferencesChange_frame ⟨"all", ["A"], ["b1"]⟩
      { priceRange := some "0-50" }).2.2.1 rfl,
   (handlePreferencesChange_frame ⟨"all", ["A"], ["b1"]⟩
      { priceRange := some "0-50" }).2.2.2.2.1 rfl⟩

/-- One entry of the external service's structured reply:
`{product_id, explanation, relevance_score}`. -/
structure RawEntry where
  product_id : String
  explanation : String
  relevance_score : ℚ
deriving DecidableEq

/-- A typed recommendation record: a resolved product reference,
an explanation, and a relevance score. -/
structure Recommendation where
  product : Product
  explanation : String
  relevance_score : ℚ
deriving DecidableEq

/-- Look up a product id in the catalog (first match). -/
def lookupProduct (store : List Product) (pid : String) : Option Product :=
  store.find? (fun p => p.id == pid)

/-- Clamp a relevance score to `[0, 1]`. -/
def clampScore (s : ℚ) : ℚ := max 0 (min 1 s)

/-- Modelled from the spec: the backend RecommendationResponseParser is
not present under `src/` (only the frontend and the backend's
`requirements.txt` are). Per the spec, for each reply entry the parser
looks up `product_id` in the ProductStore; if absent it drops the entry
and continues (never failing the whole batch), clamps
`relevance_score` to `[0, 1]`, and emits the surviving entries as
Recommendations in the original reply order. -/
def parseRecommendationResponse (store : List Product) (reply : List RawEntry) :
    List Recommendation :=
  reply.filterMap (fun e =>
    (lookupProduct store e.product_id).map (fun p =>
      { product := p
        explanation := e.explanation
        relevance_score := clampScore e.relevance_score }))

/-- **C4.** The parser drops exactly the entries whose `product_id`
resolves to no product and maps the remaining entries, in the original
reply order, to Recommendations (entry-by-entry correspondence); and
removing an unresolvable entry anywhere in the reply does not change the
result, so one unknown id never fails the batch. -/
theorem parseRecommendationResponse_spec (store : List Product) (reply : List RawEntry) :
    List.Forall₂ (fun (e : RawEntry) (r : Recommendation) =>
        lookupProduct store e.product_id = some r.product ∧
        r.explanation = e.explanation ∧
        r.relevance_score = clampScore e.relevance_score)
      (reply.filter (fun e => (lookupProduct store e.product_id).isSome))
      (parseRecommendationResponse store reply) ∧
    (∀ pre e post, reply = pre ++ e :: post →
      lookupProduct store e.product_id = none →
      parseRecommendationResponse store reply =
        parseRecommendationResponse store (pre ++ post)) := by
  constructor
  · induction reply with
    | nil => simp [parseRecommendationResponse]
    | cons e rest ih =>
      rcases hl : lookupProduct store e.product_id with _ | p
      · simpa [parseRecommendationResponse, List.filterMap_cons, hl] using ih
      · have hstep :
            parseRecommendationResponse store (e :: rest) =
              { product := p, explanation := e.explanation,
                relevance_score := clampScore e.relevance_score } ::
                parseRecommendationResponse store rest := by
          simp [parseRecommendationResponse, List.filterMap_cons, hl]
        have hfil :
            (e :: rest).filter (fun e => (lookupProduct store e.product_id).isSome) =
              e :: rest.filter (fun e => (lookupProduct store e.product_id).isSome) := by
          simp [List.filter_cons, hl]
        rw [hstep, hfil]
        exact List.Forall₂.cons ⟨hl, rfl, rfl⟩ ih
  · intro pre e post hsplit hl
    subst hsplit
    unfold parseRecommendationResponse
    rw [List.filterMap_append, List.filterMap_append, List.filterMap_cons, hl]
    rfl

/-- Witness for C4: a reply with one resolvable and one unknown id. The
unknown entry is dropped without affecting the other entry. -/
theorem parseRecommendationResponse_spec_witness :
    parseRecommendationResponse
        [⟨"p1", "n", "b", "A", "s", 30, 4, []⟩]
        [⟨"p1", "good", (1 : ℚ) / 2⟩, ⟨"p9", "bad", 2⟩] =
      parseRecommendationResponse
        [⟨"p1", "n", "b", "A", "s", 30, 4, []⟩]
        [⟨"p1", "good", (1 : ℚ) / 2⟩] :=
  (parseRecommendationResponse_spec
      [⟨"p1", "n", "b", "A", "s", 30, 4, []⟩]
      [⟨"p1", "good", (1 : ℚ) / 2⟩, ⟨"p9", "bad", 2⟩]).2
    [⟨"p1", "good", (1 : ℚ) / 2⟩] ⟨"p9", "bad", 2⟩ [] rfl (by decide)

/-- The `App.js` component state relevant to a recommendation request:
the loading flag guarding re-entry, the stored recommendations, the
browsing history, and a counter of outbound calls issued so far (the
`getRecommendations` fetches). -/
structure AppState where
  browsingHistory : List String
  recommendations : List Recommendation
  isRecommendationsLoading : Bool
  issuedCalls : Nat
deriving DecidableEq

/-- The synchronous entry of `handleGetRecommendations` in `App.js`:
`if (isRecommendationsLoading) return;` then
`setIsRecommendationsLoading(true)` and one outbound
`getRecommendations(...)` call is issued. -/
def handleGetRecommendationsStart (s : AppState) : AppState :=
  if s.isRecommendationsLoading then s
  else { s with isRecommendationsLoading := true, issuedCalls := s.issuedCalls + 1 }

/-- Completion of the awaited call in `handleGetRecommendations`:
`setRecommendations(recommendationsData)` and, in the `finally` block,
`setIsRecommendationsLoading(false)`. -/
def handleGetRecommendationsFinish (s : AppState) (result : List Recommendation) : AppState :=
  { s with recommendations := result, isRecommendationsLoading := false }

/-- **C8.** Never two in-flight requests: invoking
`handleGetRecommendations` while a previous request is still pending
(the loading flag is set) is ignored — the state is unchanged, so in
particular no second outbound call is issued. -/
theorem handleGetRecommendationsStart_pending (s : AppState)
    (h : s.isRecommendationsLoading = true) :
    handleGetRecommendationsStart s = s ∧
    (handleGetRecommendationsStart s).issuedCalls = s.issuedCalls := by
  constructor <;> simp [handleGetRecommendationsStart, h]

/-- Witness for C8: a state with one pending request absorbs a second
invocation. -/
theorem handleGetRecommendationsStart_pending_witness :
    handleGetRecommendationsStart ⟨["p1"], [], true, 1⟩ = ⟨["p1"], [], true, 1⟩ :=
  (handleGetRecommendationsStart_pending ⟨["p1"], [], true, 1⟩ rfl).1

/-- The `productLookup` object of the BrowsingHistory component
(part_003): `products.forEach(product => { productLookup[product.id] =
product })` — a later product with the same id overwrites an earlier
one — followed by the read `productLookup[id]`, which is `undefined`
(`none`) for an absent key. -/
def productLookup (products : List Product) (pid : String) : Option Product :=
  products.foldl (fun acc p => if p.id == pid then some p else acc) none

/-- `getHistoryProducts` of the BrowsingHistory component (part_003):
`[...history].reverse().map(id => productLookup[id]).filter(product =>
product !== undefined)`. -/
def getHistoryProducts (history : List String) (products : List Product) : List Product :=
  (history.reverse).filterMap (fun pid => productLookup products pid)

/-- One step of the category tally in `getSummary` (part_003):
`categoryCounts[category] = (categoryCounts[category] || 0) + 1` on a JS
object, whose string keys iterate in insertion order. An existing key is
updated in place; a new key is appended at the end. -/
def bumpCategory : List (String × Nat) → String → List (String × Nat)
  | [], c => [(c, 1)]
  | (k, n) :: rest, c =>
      if k = c then (k, n + 1) :: rest else (k, n) :: bumpCategory rest c

/-- The `categoryCounts` object built by `getSummary` over the resolved
history products, with entries in key-insertion order. -/
def categoryCounts (products : List Product) : List (String × Nat) :=
  products.foldl (fun acc p => bumpCategory acc p.category) []

/-- The `Object.entries(categoryCounts).forEach` scan of `getSummary`:
starting from `mostViewedCategory = ''` and `highestCount = 0`, an entry
replaces the current best exactly when its count is strictly greater. -/
def pickMax : List (String × Nat) → String × Nat → String × Nat
  | [], best => best
  | e :: rest, best => if best.2 < e.2 then pickMax rest e else pickMax rest best

/-- The most-viewed category computed by `getSummary` (part_003). -/
def mostViewedCategory (products : List Product) : String :=
  (pickMax (categoryCounts products) ("", 0)).1

/-- The average price computed by `getSummary`:
`products.reduce((sum, p) => sum + p.price, 0) / products.length`.
On an empty array the JS division yields `NaN`; that undefined value is
modelled as `none`. -/
def avgPrice (products : List Product) : Option ℚ :=
  if products.length = 0 then none
  else some ((products.map (fun p => p.price)).sum / products.length)

/-- `getSummary` (part_003): the most-viewed category and the average
price of the given resolved history products. -/
def getSummary (products : List Product) : String × Option ℚ :=
  (mostViewedCategory products, avgPrice products)

/-- The browse-patterns output of the BrowsingHistory component
(part_003): the summary block is rendered, and `getSummary` called, only
when `historyProducts.length > 0`; otherwise the component shows the
empty-history state, modelled as `none`. -/
def browsePatterns (history : List String) (products : List Product) :
    Option (String × Option ℚ) :=
  let hp := getHistoryProducts history products
  if 0 < hp.length then some (getSummary hp) else none

lemma filterMap_filter_isSome {α β : Type} (f : α → Option β) (l : List α) :
    (l.filter (fun a => (f a).isSome)).filterMap f = l.filterMap f := by
  induction l with
  | nil => rfl
  | cons a rest ih =>
    rcases ha : f a with _ | b
    · simp [List.filter_cons, List.filterMap_cons, ha, ih]
    · simp [List.filter_cons, List.filterMap_cons, ha, ih]

/-- **C7.** Stale-reference tolerance: every product the history
resolves to comes from an id of the history via the catalog lookup, and
ids with no matching product contribute nothing — dropping them from the
history changes neither the resolved product list nor the summary, which
is therefore computed only over ids that resolve to products. -/
theorem getHistoryProducts_skips_stale (history : List String) (products : List Product) :
    (∀ p ∈ getHistoryProducts history products,
      ∃ pid ∈ history, productLookup products pid = some p) ∧
    getHistoryProducts history products =
      getHistoryProducts
        (history.filter (fun pid => (productLookup products pid).isSome)) products ∧
    browsePatterns history products =
      browsePatterns
        (history.filter (fun pid => (productLookup products pid).isSome)) products := by
  have hlist : getHistoryProducts history products =
      getHistoryProducts
        (history.filter (fun pid => (productLookup products pid).isSome)) products := by
    unfold getHistoryProducts
    rw [← List.filter_reverse, filterMap_filter_isSome]
  refine ⟨?_, hlist, ?_⟩
  · intro p hp
    rcases List.mem_filterMap.mp hp with ⟨pid, hmem, hlook⟩
    exact ⟨pid, List.mem_reverse.mp hmem, hlook⟩
  · unfold browsePatterns
    rw [hlist]

/-- Witness for C7: a history holding one stale id resolves to the same
products as the history with the stale id dropped. -/
theorem getHistoryProducts_skips_stale_witness :
    getHistoryProducts ["p1", "p9"] [⟨"p1", "n", "b", "A", "s", 30, 4, []⟩] =
      getHistoryProducts
        (["p1", "p9"].filter
          (fun pid => (productLookup [⟨"p1", "n", "b", "A", "s", 30, 4, []⟩] pid).isSome))
        [⟨"p1", "n", "b", "A", "s", 30, 4, []⟩] :=
  (getHistoryProducts_skips_stale ["p1", "p9"] [⟨"p1", "n", "b", "A", "s", 30, 4, []⟩]).2.1

/-- **C6.** After `clear()` the history is empty, the component shows
the defined empty state instead of calling `getSummary`, and whenever a
summary is produced at all its average price is a well-defined number —
the division by the product count never happens on an empty list. -/
theorem clearHistory_summary_defined (products : List Product) :
    browsePatterns clearHistory products = none ∧
    (∀ history mv avg, browsePatterns history products = some (mv, avg) → avg.isSome) := by
  constructor
  · rfl
  · intro history mv avg h
    unfold browsePatterns at h
    by_cases hlen : 0 < (getHistoryProducts history products).length
    · simp only [hlen, if_pos] at h
      have havg : avg = avgPrice (getHistoryProducts history products) := by
        have := congrArg Prod.snd (Option.some.inj h)
        simpa [getSummary] using this.symm
      subst havg
      unfold avgPrice
      have : (getHistoryProducts history products).length ≠ 0 := Nat.pos_iff_ne_zero.mp hlen
      simp [this]
    · simp [hlen] at h

/-- Witness for C6: the empty history after `clear()` yields the empty
state, and a one-product history yields a summary with a defined
average. -/
theorem clearHistory_summary_defined_witness :
    browsePatterns clearHistory [⟨"p1", "n", "b", "A", "s", 30, 4, []⟩] = none ∧
    (Option.some (30 : ℚ)).isSome = true :=
  ⟨(clearHistory_summary_defined [⟨"p1", "n", "b", "A", "s", 30, 4, []⟩]).1,
   (clearHistory_summary_defined [⟨"p1", "n", "b", "A", "s", 30, 4, []⟩]).2
     ["p1"] "A" (Option.some 30)
     (by simp [browsePatterns, getHistoryProducts, productLookup, getSummary, avgPrice,
       mostViewedCategory, categoryCounts, bumpCategory, pickMax, List.filterMap_cons])⟩

/-- The categories of a product list, in list order. -/
def cats (products : List Product) : List String :=
  products.map (fun p => p.category)

/-- Key insertion for a JS object: an existing string key keeps its
position, a new one is appended at the end of the iteration order. -/
def addKey (ks : List String) (c : String) : List String :=
  if c ∈ ks then ks else ks ++ [c]

/-- The key iteration order of the `categoryCounts` object: category
names in order of first appearance. -/
def keysInOrder (cs : List String) : List String := cs.foldl addKey []

/-- Read a key's tally from the association list (`0` for an absent
key, matching `categoryCounts[category] || 0`). -/
def countOf (l : List (String × Nat)) (c : String) : Nat :=
  match l.find? (fun e => e.1 == c) with
  | some e => e.2
  | none => 0

lemma bumpCategory_keys (acc : List (String × Nat)) (c : String) :
    (bumpCategory acc c).map Prod.fst = addKey (acc.map Prod.fst) c := by
  induction acc with
  | nil => simp [bumpCategory, addKey]
  | cons e rest ih =>
    obtain ⟨k, n⟩ := e
    by_cases hk : k = c
    · subst hk
      simp [bumpCategory, addKey]
    · unfold bumpCategory
      rw [if_neg hk]
      by_cases hmem : c ∈ rest.map Prod.fst
      · simp [addKey, ih, hmem, Ne.symm hk]
      · simp [addKey, ih, hmem, Ne.symm hk]

lemma categoryCounts_keys_aux (ps : List Product) (acc : List (String × Nat)) :
    (ps.foldl (fun a p => bumpCategory a p.category) acc).map Prod.fst =
      (cats ps).foldl addKey (acc.map Prod.fst) := by
  induction ps generalizing acc with
  | nil => simp [cats]
  | cons p rest ih =>
    simp only [List.foldl_cons, cats, List.map_cons]
    rw [ih, bumpCategory_keys]
    rfl

/-- The keys of the category tally are the categories in order of first
appearance. -/
lemma categoryCounts_keys (ps : List Product) :
    (categoryCounts ps).map Prod.fst = keysInOrder (cats ps) := by
  unfold categoryCounts keysInOrder
  simpa using categoryCounts_keys_aux ps []

lemma countOf_bumpCategory (acc : List (String × Nat)) (c d : String) :
    countOf (bumpCategory acc c) d = countOf acc d + (if d = c then 1 else 0) := by
  induction acc with
  | nil =>
    by_cases hdc : d = c
    · subst hdc
      simp [bumpCategory, countOf, List.find?_cons]
    · simp [bumpCategory, countOf, List.find?_cons, Ne.symm hdc, hdc]
  | cons e rest ih =>
    obtain ⟨k, n⟩ := e
    by_cases hk : k = c
    · subst hk
      by_cases hd : k = d
      · subst hd
        simp [bumpCategory, countOf, List.find?_cons]
      · unfold bumpCategory countOf
        simp [List.find?_cons, hd, Ne.symm hd]
    · unfold bumpCategory
      rw [if_neg hk]
      by_cases hd : k = d
      · subst hd
        have hdc : ¬k = c := hk
        simp [countOf, List.find?_cons, hdc]
      · unfold countOf
        simp only [List.find?_cons]
        have hbe : (k == d) = false := by
          simp [hd]
        rw [hbe]
        exact ih

lemma countOf_categoryCounts_aux (ps : List Product) (acc : List (String × Nat)) (c : String) :
    countOf (ps.foldl (fun a p => bumpCategory a p.category) acc) c =
      countOf acc c + (cats ps).count c := by
  induction ps generalizing acc with
  | nil => simp [cats]
  | cons p rest ih =>
    simp only [List.foldl_cons]
    rw [ih, countOf_bumpCategory]
    have : (cats (p :: rest)).count c = (cats rest).count c + (if c = p.category then 1 else 0) := by
      by_cases hc : c = p.category
      · simp [cats, List.count_cons, hc]
      · have hpc : ¬p.category = c := fun h => hc h.symm
        simp [cats, List.count_cons, hc, hpc]
    rw [this]
    omega

/-- The tally recorded for a category is its number of occurrences
among the products. -/
lemma countOf_categoryCounts (ps : List Product) (c : String) :
    countOf (categoryCounts ps) c = (cats ps).count c := by
  unfold categoryCounts
  rw [countOf_categoryCounts_aux]
  simp [countOf]

lemma mem_addKey (ks : List String) (c d : String) :
    c ∈ addKey ks d ↔ c ∈ ks ∨ c = d := by
  unfold addKey
  by_cases hd : d ∈ ks
  · simp only [if_pos hd]
    constructor
    · exact Or.inl
    · rintro (h | rfl)
      · exact h
      · exact hd
  · simp [if_neg hd]

lemma mem_foldl_addKey (cs : List String) (ks : List String) (c : String) :
    c ∈ cs.foldl addKey ks ↔ c ∈ ks ∨ c ∈ cs := by
  induction cs generalizing ks with
  | nil => simp
  | cons d rest ih =>
    simp only [List.foldl_cons]
    rw [ih, mem_addKey]
    simp only [List.mem_cons]
    tauto

/-- Membership in the key iteration order is membership in the list. -/
lemma mem_keysInOrder (cs : List String) (c : String) :
    c ∈ keysInOrder cs ↔ c ∈ cs := by
  unfold keysInOrder
  rw [mem_foldl_addKey]
  simp

lemma nodup_foldl_addKey (cs : List String) (ks : List String) (h : ks.Nodup) :
    (cs.foldl addKey ks).Nodup := by
  induction cs generalizing ks with
  | nil => exact h
  | cons d rest ih =>
    simp only [List.foldl_cons]
    refine ih _ ?_
    unfold addKey
    by_cases hd : d ∈ ks
    · simpa [hd]
    · rw [if_neg hd]
      rw [List.nodup_append]
      refine ⟨h, List.nodup_singleton d, ?_⟩
      intro a ha hb
      have hEq : a = d := by simpa using hb
      subst hEq
      exact hd ha

lemma nodup_keysInOrder (cs : List String) : (keysInOrder cs).Nodup :=
  nodup_foldl_addKey cs [] List.nodup_nil

/-- In an association list with distinct keys, the recorded tally of an
entry's key is the entry's value. -/
lemma countOf_of_mem (l : List (String × Nat)) (hnd : (l.map Prod.fst).Nodup)
    (x : String × Nat) (hx : x ∈ l) : countOf l x.1 = x.2 := by
  induction l with
  | nil => cases hx
  | cons y t ih =>
    rw [List.map_cons, List.nodup_cons] at hnd
    rcases List.mem_cons.mp hx with hEq | hx
    · subst hEq
      simp [countOf, List.find?_cons]
    · have hne : (y.1 == x.1) = false := by
        have : x.1 ∈ t.map Prod.fst := List.mem_map.mpr ⟨x, hx, rfl⟩
        have hy : y.1 ≠ x.1 := fun hEq => hnd.1 (hEq ▸ this)
        simpa using hy
      unfold countOf
      rw [List.find?_cons, hne]
      exact ih hnd.2 hx

lemma pickMax_of_forall_le (l : List (String × Nat)) (best : String × Nat)
    (h : ∀ e ∈ l, e.2 ≤ best.2) : pickMax l best = best := by
  induction l generalizing best with
  | nil => rfl
  | cons e rest ih =>
    have he : e.2 ≤ best.2 := h e (List.mem_cons_self e rest)
    unfold pickMax
    rw [if_neg (by omega)]
    exact ih best (fun x hx => h x (List.mem_cons_of_mem e hx))

/-- The strict-improvement scan of `getSummary` selects the first entry
whose count attains the maximum: the entries strictly before the result
all have strictly smaller counts, and no entry exceeds it. -/
lemma pickMax_split (l : List (String × Nat)) (best : String × Nat)
    (h : ∃ e ∈ l, best.2 < e.2) :
    ∃ l₁ e l₂, l = l₁ ++ e :: l₂ ∧ pickMax l best = e ∧
      (∀ x ∈ l₁, x.2 < e.2) ∧ (∀ x ∈ l, x.2 ≤ e.2) ∧ best.2 < e.2 := by
  induction l generalizing best with
  | nil =>
    rcases h with ⟨e, he, _⟩
    cases he
  | cons a rest ih =>
    by_cases ha : best.2 < a.2
    · unfold pickMax
      rw [if_pos ha]
      by_cases hrest : ∃ x ∈ rest, a.2 < x.2
      · rcases ih a hrest with ⟨l₁, e, l₂, hsplit, hpick, hlt, hle, haE⟩
        refine ⟨a :: l₁, e, l₂, by rw [List.cons_append, hsplit], hpick, ?_, ?_, lt_trans ha haE⟩
        · intro x hx
          rcases List.mem_cons.mp hx with rfl | hx
          · exact haE
          · exact hlt x hx
        · intro x hx
          rcases List.mem_cons.mp hx with rfl | hx
          · exact le_of_lt haE
          · exact hle x hx
      · push_neg at hrest
        refine ⟨[], a, rest, rfl, pickMax_of_forall_le rest a hrest, by simp, ?_, ha⟩
        intro x hx
        rcases List.mem_cons.mp hx with rfl | hx
        · exact le_refl _
        · exact hrest x hx
    · unfold pickMax
      rw [if_neg ha]
      have hrest : ∃ x ∈ rest, best.2 < x.2 := by
        rcases h with ⟨e, he, hbe⟩
        rcases List.mem_cons.mp he with rfl | he
        · exact absurd hbe ha
        · exact ⟨e, he, hbe⟩
      rcases ih best hrest with ⟨l₁, e, l₂, hsplit, hpick, hlt, hle, hbE⟩
      refine ⟨a :: l₁, e, l₂, by rw [List.cons_append, hsplit], hpick, ?_, ?_, hbE⟩
      · intro x hx
        rcases List.mem_cons.mp hx with rfl | hx
        · exact lt_of_le_of_lt (not_lt.mp ha) hbE
        · exact hlt x hx
      · intro x hx
        rcases List.mem_cons.mp hx with rfl | hx
        · exact le_of_lt (lt_of_le_of_lt (not_lt.mp ha) hbE)
        · exact hle x hx

lemma exists_first_split {α : Type} {c : α} {cs : List α} [DecidableEq α] (h : c ∈ cs) :
    ∃ l₁ l₂, cs = l₁ ++ c :: l₂ ∧ c ∉ l₁ := by
  induction cs with
  | nil => cases h
  | cons a rest ih =>
    by_cases hac : c = a
    · subst hac
      exact ⟨[], rest, rfl, List.not_mem_nil c⟩
    · have hcr : c ∈ rest := by
        rcases List.mem_cons.mp h with h1 | h1
        · exact absurd h1 hac
        · exact h1
      rcases ih hcr with ⟨l₁, l₂, hsplit, hnot⟩
      refine ⟨a :: l₁, l₂, by rw [List.cons_append, hsplit], ?_⟩
      intro hc
      rcases List.mem_cons.mp hc with h2 | h2
      · exact hac h2
      · exact hnot h2

lemma foldl_addKey_extends (cs : List String) (ks : List String) :
    ∃ ext, cs.foldl addKey ks = ks ++ ext := by
  induction cs generalizing ks with
  | nil => exact ⟨[], by simp⟩
  | cons c rest ih =>
    simp only [List.foldl_cons]
    rcases ih (addKey ks c) with ⟨ext, hext⟩
    by_cases hc : c ∈ ks
    · refine ⟨ext, ?_⟩
      rw [hext]
      unfold addKey
      rw [if_pos hc]
    · refine ⟨c :: ext, ?_⟩
      rw [hext]
      unfold addKey
      rw [if_neg hc]
      simp

lemma addKey_of_not_mem {ks : List String} {c : String} (hc : c ∉ ks) :
    addKey ks c = ks ++ [c] := by
  unfold addKey
  rw [if_neg hc]

lemma keysInOrder_split (l₁ l₂ : List String) (c : String) (hnot : c ∉ l₁) :
    ∃ ext, keysInOrder (l₁ ++ c :: l₂) = keysInOrder l₁ ++ c :: ext := by
  unfold keysInOrder
  rw [List.foldl_append]
  simp only [List.foldl_cons]
  have hc : c ∉ List.foldl addKey [] l₁ := by
    rw [mem_foldl_addKey]
    simp [hnot]
  rw [addKey_of_not_mem hc]
  rcases foldl_addKey_extends l₂ (List.foldl addKey [] l₁ ++ [c]) with ⟨ext, hext⟩
  refine ⟨ext, ?_⟩
  rw [hext]
  simp

lemma split_unique {α : Type} (a : α) : ∀ (x₁ x₂ y₁ y₂ : List α),
    x₁ ++ a :: y₁ = x₂ ++ a :: y₂ → a ∉ x₁ → a ∉ x₂ → x₁ = x₂ := by
  intro x₁
  induction x₁ with
  | nil =>
    intro x₂ y₁ y₂ heq h1 h2
    cases x₂ with
    | nil => rfl
    | cons b t =>
      simp only [List.nil_append, List.cons_append] at heq
      injection heq with hb ht
      subst hb
      exact absurd (List.mem_cons_self a t) h2
  | cons b t ih =>
    intro x₂ y₁ y₂ heq h1 h2
    cases x₂ with
    | nil =>
      simp only [List.cons_append, List.nil_append] at heq
      injection heq with hb ht
      subst hb
      exact absurd (List.mem_cons_self b t) h1
    | cons b2 t2 =>
      simp only [List.cons_append] at heq
      injection heq with hb ht
      subst hb
      rw [ih t2 y₁ y₂ ht (fun h => h1 (List.mem_cons_of_mem b h))
        (fun h => h2 (List.mem_cons_of_mem b h))]

/-- Characterization of the most-viewed category computed by
`getSummary` on a non-empty product list: it is a category of the list,
no category has a strictly larger count, and every category whose first
appearance is strictly earlier has a strictly smaller count (so a tie at
the maximum is resolved in favour of the first-encountered category). -/
lemma mostViewedCategory_spec (ps : List Product) (hne : ps ≠ []) :
    mostViewedCategory ps ∈ cats ps ∧
    (∀ c ∈ cats ps, (cats ps).count c ≤ (cats ps).count (mostViewedCategory ps)) ∧
    ∃ l₁ l₂, cats ps = l₁ ++ mostViewedCategory ps :: l₂ ∧
      ∀ c ∈ l₁, (cats ps).count c < (cats ps).count (mostViewedCategory ps) := by
  have hkeys : (categoryCounts ps).map Prod.fst = keysInOrder (cats ps) :=
    categoryCounts_keys ps
  have hnd : ((categoryCounts ps).map Prod.fst).Nodup := by
    rw [hkeys]
    exact nodup_keysInOrder _
  obtain ⟨p, hps⟩ : ∃ p, p ∈ ps := by
    cases ps with
    | nil => exact absurd rfl hne
    | cons q t => exact ⟨q, List.mem_cons_self q t⟩
  have hpc : p.category ∈ cats ps := List.mem_map.mpr ⟨p, hps, rfl⟩
  have hpk : p.category ∈ (categoryCounts ps).map Prod.fst := by
    rw [hkeys, mem_keysInOrder]
    exact hpc
  obtain ⟨x, hxl, hx1⟩ := List.mem_map.mp hpk
  have hxval : x.2 = (cats ps).count x.1 := by
    rw [← countOf_categoryCounts ps x.1]
    exact (countOf_of_mem (categoryCounts ps) hnd x hxl).symm
  have hxpos : (("" : String), (0 : Nat)).2 < x.2 := by
    show (0 : Nat) < x.2
    rw [hxval, hx1]
    exact List.count_pos_iff.mpr hpc
  obtain ⟨k₁, e, k₂, hsplit, hpick, hlt, hle, hbe⟩ :=
    pickMax_split (categoryCounts ps) ("", 0) ⟨x, hxl, hxpos⟩
  have hm : mostViewedCategory ps = e.1 := by
    unfold mostViewedCategory
    rw [hpick]
  have hel : e ∈ categoryCounts ps := by
    rw [hsplit]
    exact List.mem_append.mpr (Or.inr (List.mem_cons_self _ _))
  have heval : e.2 = (cats ps).count e.1 := by
    rw [← countOf_categoryCounts ps e.1]
    exact (countOf_of_mem (categoryCounts ps) hnd e hel).symm
  have hmem : e.1 ∈ cats ps := by
    rw [← mem_keysInOrder, ← hkeys]
    exact List.mem_map.mpr ⟨e, hel, rfl⟩
  refine ⟨hm ▸ hmem, ?_, ?_⟩
  · intro c hc
    rw [hm]
    have hck : c ∈ (categoryCounts ps).map Prod.fst := by
      rw [hkeys, mem_keysInOrder]
      exact hc
    obtain ⟨y, hyl, hy1⟩ := List.mem_map.mp hck
    have hyval : y.2 = (cats ps).count y.1 := by
      rw [← countOf_categoryCounts ps y.1]
      exact (countOf_of_mem (categoryCounts ps) hnd y hyl).symm
    subst hy1
    rw [← hyval, ← heval]
    exact hle y hyl
  · rw [hm]
    obtain ⟨l₁, l₂, hcs, hnot⟩ := exists_first_split hmem
    refine ⟨l₁, l₂, hcs, ?_⟩
    intro c hc
    obtain ⟨ext, hko⟩ := keysInOrder_split l₁ l₂ e.1 hnot
    have hkeys2 : (categoryCounts ps).map Prod.fst = keysInOrder l₁ ++ e.1 :: ext := by
      rw [hkeys, hcs, hko]
    have hkeys3 : (categoryCounts ps).map Prod.fst =
        k₁.map Prod.fst ++ e.1 :: k₂.map Prod.fst := by
      rw [hsplit]
      simp
    have hnd2 : (k₁.map Prod.fst ++ e.1 :: k₂.map Prod.fst).Nodup := by
      rw [← hkeys3]
      exact hnd
    have hnk : e.1 ∉ k₁.map Prod.fst := by
      rw [List.nodup_append] at hnd2
      intro hmem2
      exact hnd2.2.2 hmem2 (List.mem_cons_self _ _)
    have hni : e.1 ∉ keysInOrder l₁ := by
      rw [mem_keysInOrder]
      exact hnot
    have hfirst : keysInOrder l₁ = k₁.map Prod.fst :=
      split_unique e.1 (keysInOrder l₁) (k₁.map Prod.fst) ext (k₂.map Prod.fst)
        (hkeys2.symm.trans hkeys3) hni hnk
    have hcK : c ∈ k₁.map Prod.fst := by
      rw [← hfirst, mem_keysInOrder]
      exact hc
    obtain ⟨y, hyk, hy1⟩ := List.mem_map.mp hcK
    have hyl : y ∈ categoryCounts ps := by
      rw [hsplit]
      exact List.mem_append.mpr (Or.inl hyk)
    have hyval : y.2 = (cats ps).count y.1 := by
      rw [← countOf_categoryCounts ps y.1]
      exact (countOf_of_mem (categoryCounts ps) hnd y hyl).symm
    subst hy1
    rw [← hyval, ← heval]
    exact hlt y hyk

/-- **C5.** `getSummary` returns the most-frequent category among the
resolved history products: the returned category occurs in the list, no
category has a strictly larger count, and every category first
encountered strictly earlier has a strictly smaller count — so when two
categories tie for the highest count, the first-encountered one (the JS
object iteration order is key-insertion order) is returned. -/
theorem getSummary_mostFrequent (ps : List Product) (hne : ps ≠ []) :
    (getSummary ps).1 ∈ cats ps ∧
    (∀ c ∈ cats ps, (cats ps).count c ≤ (cats ps).count (getSummary ps).1) ∧
    ∃ l₁ l₂, cats ps = l₁ ++ (getSummary ps).1 :: l₂ ∧
      ∀ c ∈ l₁, (cats ps).count c < (cats ps).count (getSummary ps).1 :=
  mostViewedCategory_spec ps hne

/-- Witness for C5 on a concrete two-category tie. -/
theorem getSummary_mostFrequent_witness :
    (getSummary [⟨"p1", "n", "b", "A", "s", 30, 4, []⟩,
      ⟨"p2", "m", "c", "B", "t", 10, 3, []⟩]).1 ∈
      cats [⟨"p1", "n", "b", "A", "s", 30, 4, []⟩,
        ⟨"p2", "m", "c", "B", "t", 10, 3, []⟩] :=
  (getSummary_mostFrequent [⟨"p1", "n", "b", "A", "s", 30, 4, []⟩,
    ⟨"p2", "m", "c", "B", "t", 10, 3, []⟩] (List.cons_ne_nil _ _)).1

/-- **C10.** On every non-empty resolved product list, the most-viewed
category computed by the browsing summary is the category of some
product of the list; the empty-string value it is initialized with is
never returned as such, because a non-empty list makes some count exceed
the initial zero. -/
theorem mostViewedCategory_mem (ps : List Product) (hne : ps ≠ []) :
    ∃ p ∈ ps, p.category = mostViewedCategory ps :=
  List.mem_map.mp (mostViewedCategory_spec ps hne).1

/-- Witness for C10 on a concrete one-product list. -/
theorem mostViewedCategory_mem_witness :
    ∃ p ∈ [(⟨"p2", "m", "c", "B", "t", 10, 3, []⟩ : Product)],
      p.category = mostViewedCategory [⟨"p2", "m", "c", "B", "t", 10, 3, []⟩] :=
  mostViewedCategory_mem [⟨"p2", "m", "c", "B", "t", 10, 3, []⟩] (List.cons_ne_nil _ _)
